import Mathlib

/-!
Verification of the BBC disability news coverage analysis script
(bbc_analysis_v3.py).

The core of the script classifies a sequence of headline strings against an
ordered set of named category rules.  Following the data model of the design
document, a rule is a category name paired with a boolean matcher over
headline text (the concrete regular expressions of the script are instances
of such matchers).  Pandas index sets are modelled as order-preserving
filters over the headline list; the pandas co-occurrence data frame is
modelled as a function from a pair of category names to a count.
-/

namespace BBCAnalysis

/-- A category rule: a name together with a boolean matcher over headline
text.  Embeds one entry of the `patterns` dict of the script (lines 45-71);
the regex is abstracted to its induced predicate. -/
abbrev Rule := String × (String → Bool)

/-- True when some rule of the set matches the headline.  Embeds membership
of a headline index in `all_matched_indices` (lines 80-101). -/
def matchesAnyRule (rules : List Rule) (h : String) : Bool :=
  rules.any (fun r => r.2 h)

/-- The multi-category result mapping (lines 79-107): one entry per rule, in
rule order, holding the count and the list of matching headlines, followed
by the Uncategorized entry for headlines matched by no rule. -/
def multi_category_results (rules : List Rule) (hs : List String) :
    List (String × Nat × List String) :=
  rules.map (fun r => (r.1, (hs.filter r.2).length, hs.filter r.2))
    ++ [("Uncategorized",
         (hs.filter (fun h => ! matchesAnyRule rules h)).length,
         hs.filter (fun h => ! matchesAnyRule rules h))]

/-- The multi-category total of line 110: sum of the counts of all entries
other than Uncategorized. -/
def multi_sum (rules : List Rule) (hs : List String) : Nat :=
  (((multi_category_results rules hs).filter
      (fun e => e.1 != "Uncategorized")).map (fun e => e.2.1)).sum

/-- The state of the exclusive classification dict just after lines 131-132:
one zeroed entry per rule plus the zeroed Uncategorized entry. -/
def initialState (rules : List Rule) : List (String × Nat × List String) :=
  rules.map (fun r => (r.1, 0, ([] : List String))) ++ [("Uncategorized", 0, [])]

/-- One dict update of lines 142-143 and 149-150: increment the count of the
entry named `lab` and append the headline to its list. -/
def addHeadline (st : List (String × Nat × List String)) (lab h : String) :
    List (String × Nat × List String) :=
  st.map (fun e => if e.1 == lab then (e.1, e.2.1 + 1, e.2.2 ++ [h]) else e)

/-- Processing of a single headline by the loop body of lines 135-150: the
first rule whose matcher fires claims the headline; if none fires the
headline goes to Uncategorized. -/
def exclusiveStep (rules : List Rule) (st : List (String × Nat × List String))
    (h : String) : List (String × Nat × List String) :=
  match rules.find? (fun r => r.2 h) with
  | some r => addHeadline st r.1 h
  | none => addHeadline st "Uncategorized" h

/-- The exclusive classification result of lines 131-150: the fold of the
per-headline loop body over the headline sequence. -/
def exclusive_category_results (rules : List Rule) (hs : List String) :
    List (String × Nat × List String) :=
  hs.foldl (exclusiveStep rules) (initialState rules)

/-- The exclusive total of line 153: sum of the counts of all entries,
including Uncategorized. -/
def exclusive_sum (rules : List Rule) (hs : List String) : Nat :=
  ((exclusive_category_results rules hs).map (fun e => e.2.1)).sum

/-- Sum of the exclusive counts with the Uncategorized entry left out, the
quantity the design document calls the exclusive non-uncategorized total. -/
def exclusive_sum_non_uncategorized (rules : List Rule) (hs : List String) : Nat :=
  (((exclusive_category_results rules hs).filter
      (fun e => e.1 != "Uncategorized")).map (fun e => e.2.1)).sum

/-- Lookup of a category entry in a result mapping, defaulting to a zero
entry, as in the `.get(cat, {"count": 0})` accesses of lines 189-190. -/
def getEntry (res : List (String × Nat × List String)) (lab : String) :
    Nat × List String :=
  match res.find? (fun e => e.1 == lab) with
  | some e => e.2
  | none => (0, [])

/-- The category name that the exclusive loop assigns to a headline: the
name of the first matching rule, or Uncategorized. -/
def exclusiveLabel (rules : List Rule) (h : String) : String :=
  match rules.find? (fun r => r.2 h) with
  | some r => r.1
  | none => "Uncategorized"

/-- The rules kept for the heatmap, `categories_for_heatmap` of lines
244-245: all rules whose name is not in the excluded name list. -/
def eligibleRules (rules : List Rule) (excluded : List String) : List Rule :=
  rules.filter (fun r => ! excluded.contains r.1)

/-- The `matched_cats` list of lines 252-257 for one headline: the names of
the eligible rules whose matcher fires, in rule order. -/
def matchedCats (rules : List Rule) (excluded : List String) (h : String) :
    List String :=
  ((eligibleRules rules excluded).filter (fun r => r.2 h)).map (fun r => r.1)

/-- Increment of a single cell of the co-occurrence table, one
`co_occurrence_matrix.at[a, b] += 1` of lines 262-264. -/
def bumpCell (m : String → String → Nat) (a b : String) :
    String → String → Nat :=
  fun x y => if x == a && y == b then m x y + 1 else m x y

/-- The body of the inner pair loop of lines 260-264: bump cell (cat1, cat2)
and, when the two categories differ, also bump the mirror cell. -/
def pairStep (m : String → String → Nat) (p : String × String) :
    String → String → Nat :=
  if p.1 == p.2 then bumpCell m p.1 p.2
  else bumpCell (bumpCell m p.1 p.2) p.2 p.1

/-- The pair enumeration of lines 260-261: each element paired with itself
and with every later element (`for i, cat1 in enumerate(matched_cats): for
cat2 in matched_cats[i:]`). -/
def tailPairs : List String → List (String × String)
  | [] => []
  | c :: rest => (c :: rest).map (fun c2 => (c, c2)) ++ tailPairs rest

/-- The co-occurrence matrix of lines 247-264: starting from the zero table,
fold the pair updates of every headline. -/
def co_occurrence_matrix (rules : List Rule) (excluded : List String)
    (hs : List String) : String → String → Nat :=
  hs.foldl
    (fun m h => (tailPairs (matchedCats rules excluded h)).foldl pairStep m)
    (fun _ _ => 0)

/-- Sum of the counts of the named categories in a result mapping, as in the
visibility sums of lines 292-297. -/
def sumCounts (res : List (String × Nat × List String)) (cats : List String) :
    Nat :=
  (cats.map (fun c => (getEntry res c).1)).sum

/-- Python division of two machine integers: raises ZeroDivisionError on a
zero denominator, otherwise yields the exact quotient. -/
def pyDiv (a b : Nat) : Except String Rat :=
  if b == 0 then Except.error "ZeroDivisionError"
  else Except.ok ((a : Rat) / (b : Rat))

/-- The exclusive-view visibility ratio of line 302:
`visible_exclusive / invisible_exclusive`. -/
def visibilityRatioExclusive (rules : List Rule) (hs : List String)
    (visible invisible : List String) : Except String Rat :=
  pyDiv (sumCounts (exclusive_category_results rules hs) visible)
    (sumCounts (exclusive_category_results rules hs) invisible)

/-- The multi-view visibility ratio of line 307:
`visible_multi / invisible_multi`. -/
def visibilityRatioMulti (rules : List Rule) (hs : List String)
    (visible invisible : List String) : Except String Rat :=
  pyDiv (sumCounts (multi_category_results rules hs) visible)
    (sumCounts (multi_category_results rules hs) invisible)

/-- Concrete matcher for the Deaf/Hearing demonstration rule. -/
def rDeaf : Rule := ("Deaf/Hearing", fun h => h == "Deaf son inspires mum")

/-- Concrete matcher for the Family and Carer demonstration rule. -/
def rFam : Rule :=
  ("Family & Carer Perspective",
   fun h => h == "Deaf son inspires mum" || h == "Mum wins award")

/-- Concrete matcher for the Mental Health demonstration rule; it matches
none of the demonstration headlines. -/
def rMental : Rule := ("Mental Health & Neuro", fun h => h == "anxiety rising")

/-- A small concrete rule set used to instantiate the general theorems. -/
def demoRules : List Rule := [rDeaf, rFam, rMental]

/-- A small concrete headline sequence used to instantiate the theorems. -/
def demoHeadlines : List String :=
  ["Deaf son inspires mum", "Mum wins award", "Quantum computing"]

/-- Sum of a pointwise addition of mapped values splits into two sums. -/
lemma sum_map_add {α : Type} (l : List α) (f g : α → Nat) :
    (l.map fun x => f x + g x).sum = (l.map f).sum + (l.map g).sum := by
  induction l with
  | nil => simp
  | cons a t ih => simp [ih]; omega

/-- Counting with a predicate is summing its indicator function. -/
lemma countP_eq_sum_map {α : Type} (l : List α) (p : α → Bool) :
    l.countP p = (l.map fun x => if p x then 1 else 0).sum := by
  induction l with
  | nil => simp
  | cons a t ih =>
    cases hpa : p a with
    | false => simp [List.countP_cons, hpa, ih]
    | true =>
      simp [List.countP_cons, hpa, ih]
      omega

/-- Boolean membership test agrees with propositional membership. -/
lemma contains_true_iff (L : List String) (s : String) :
    L.contains s = true ↔ s ∈ L := by
  simp

/-- In a duplicate-free list, a present value is hit exactly once. -/
lemma countP_beq_one (L : List String) (s : String) (hnd : L.Nodup)
    (hmem : s ∈ L) : L.countP (fun x => s == x) = 1 := by
  induction L with
  | nil => cases hmem
  | cons c rest ih =>
    rcases List.mem_cons.mp hmem with rfl | hmem2
    · have hz : rest.countP (fun x => s == x) = 0 :=
        List.countP_eq_zero.mpr fun a ha => by
          have hne : s ≠ a := fun he => (List.nodup_cons.mp hnd).1 (he ▸ ha)
          simp [hne]
      simp [List.countP_cons, hz]
    · have hne : s ≠ c := fun he =>
        (List.nodup_cons.mp hnd).1 (he ▸ hmem2)
      have hr := ih (List.nodup_cons.mp hnd).2 hmem2
      simp [List.countP_cons, hne, hr]

/-- An absent value is never hit. -/
lemma countP_beq_zero (L : List String) (s : String) (hmem : s ∉ L) :
    L.countP (fun x => s == x) = 0 :=
  List.countP_eq_zero.mpr fun a ha => by
    have : s ≠ a := fun he => hmem (he ▸ ha)
    simp [this]

/-- Summing, over a duplicate-free list of class names, the number of
elements falling in each class counts exactly the elements whose class name
occurs in the list. -/
lemma sum_countP_classes {α : Type} (l : List α) (f : α → String)
    (L : List String) (hnd : L.Nodup) :
    (L.map fun lab => l.countP fun a => f a == lab).sum
      = l.countP fun a => L.contains (f a) := by
  induction l with
  | nil => simp
  | cons a t ih =>
    have hmap : (L.map fun lab => List.countP (fun x => f x == lab) (a :: t)).sum
        = (L.map fun lab => List.countP (fun x => f x == lab) t).sum
          + (L.map fun lab => if f a == lab then 1 else 0).sum := by
      rw [← sum_map_add]
      exact congrArg List.sum (List.map_congr_left fun lab _ =>
        List.countP_cons _ _ _)
    have hind : (L.map fun lab => if f a == lab then (1 : Nat) else 0).sum
        = if L.contains (f a) then 1 else 0 := by
      rw [← countP_eq_sum_map]
      by_cases hm : f a ∈ L
      · rw [countP_beq_one L (f a) hnd hm, if_pos ((contains_true_iff L (f a)).mpr hm)]
      · rw [countP_beq_zero L (f a) hm, if_neg]
        intro hc
        exact hm ((contains_true_iff L (f a)).mp hc)
    rw [hmap, ih, hind, List.countP_cons]

/-- Double counting: per-rule match totals and per-headline match totals
agree. -/
lemma sum_counts_swap (rules : List Rule) (hs : List String) :
    (rules.map fun r => hs.countP r.2).sum
      = (hs.map fun h => rules.countP fun r => r.2 h).sum := by
  induction rules with
  | nil => simp
  | cons r rest ih =>
    simp only [List.map_cons, List.sum_cons, ih, countP_eq_sum_map hs r.2]
    rw [← sum_map_add]
    exact congrArg List.sum (List.map_congr_left fun h _ => by
      rw [List.countP_cons]
      exact Nat.add_comm _ _)

/-- With a pointwise bound, the two mapped sums agree exactly when the
functions agree on every element. -/
lemma sum_map_eq_iff {α : Type} (l : List α) (f g : α → Nat)
    (hle : ∀ x ∈ l, g x ≤ f x) :
    (l.map f).sum = (l.map g).sum ↔ ∀ x ∈ l, f x = g x := by
  induction l with
  | nil => simp
  | cons a t ih =>
    have h1 : g a ≤ f a := hle a (List.mem_cons_self a t)
    have h2 : (t.map g).sum ≤ (t.map f).sum :=
      List.sum_le_sum fun x hx => hle x (List.mem_cons_of_mem a hx)
    have iht := ih fun x hx => hle x (List.mem_cons_of_mem a hx)
    simp only [List.map_cons, List.sum_cons]
    constructor
    · intro he
      have hfa : f a = g a := by omega
      have ht : (t.map f).sum = (t.map g).sum := by omega
      intro x hx
      rcases List.mem_cons.mp hx with rfl | hx2
      · exact hfa
      · exact iht.mp ht x hx2
    · intro hall
      rw [hall a (List.mem_cons_self a t)]
      rw [iht.mpr fun x hx => hall x (List.mem_cons_of_mem a hx)]

/-- The loop body of the exclusive classification always updates the entry
named by the assigned category of the headline. -/
lemma exclusiveStep_eq (rules : List Rule)
    (st : List (String × Nat × List String)) (h : String) :
    exclusiveStep rules st h = addHeadline st (exclusiveLabel rules h) h := by
  unfold exclusiveStep exclusiveLabel
  cases rules.find? (fun r => r.2 h) <;> rfl

/-- Folding the exclusive loop body over the headlines updates every entry
of the state by the number, and the list, of headlines assigned to its
name. -/
lemma foldl_exclusiveStep (rules : List Rule) (hs : List String)
    (st : List (String × Nat × List String)) :
    hs.foldl (exclusiveStep rules) st
      = st.map (fun e => (e.1,
          e.2.1 + hs.countP (fun h => exclusiveLabel rules h == e.1),
          e.2.2 ++ hs.filter (fun h => exclusiveLabel rules h == e.1))) := by
  induction hs generalizing st with
  | nil =>
    simp only [List.foldl_nil, List.countP_nil, List.filter_nil,
      Nat.add_zero, List.append_nil]
    exact (List.map_id st).symm
  | cons h t ih =>
    rw [List.foldl_cons, exclusiveStep_eq, ih]
    unfold addHeadline
    rw [List.map_map]
    apply List.map_congr_left
    intro e _
    by_cases hc : exclusiveLabel rules h = e.1
    · have hb : (e.1 == exclusiveLabel rules h) = true := by simp [hc]
      have hb2 : (exclusiveLabel rules h == e.1) = true := by simp [hc]
      simp only [Function.comp_apply, hb, if_true, List.countP_cons, hb2,
        List.filter_cons, cond_true, Prod.mk.injEq, true_and]
      refine ⟨by omega, ?_⟩
      rw [List.append_assoc]
      rfl
    · have hc' : ¬ e.1 = exclusiveLabel rules h := fun he => hc he.symm
      have hb2 : (exclusiveLabel rules h == e.1) = false := by simp [hc]
      simp [Function.comp_apply, hc', hb2, List.countP_cons, List.filter_cons]

/-- Closed form of the exclusive result mapping: one entry per rule holding
the count and list of headlines assigned to its name, then the
Uncategorized entry. -/
lemma exclusive_results_eq (rules : List Rule) (hs : List String) :
    exclusive_category_results rules hs
      = rules.map (fun r => (r.1,
          hs.countP (fun h => exclusiveLabel rules h == r.1),
          hs.filter (fun h => exclusiveLabel rules h == r.1)))
        ++ [("Uncategorized",
             hs.countP (fun h => exclusiveLabel rules h == "Uncategorized"),
             hs.filter (fun h => exclusiveLabel rules h == "Uncategorized"))] := by
  unfold exclusive_category_results initialState
  rw [foldl_exclusiveStep, List.map_append, List.map_map]
  simp

/-- The assigned category of a headline is a rule name or Uncategorized. -/
lemma exclusiveLabel_mem (rules : List Rule) (h : String) :
    exclusiveLabel rules h ∈ rules.map Prod.fst ++ ["Uncategorized"] := by
  unfold exclusiveLabel
  cases hfind : rules.find? (fun r => r.2 h) with
  | some r =>
    exact List.mem_append_left _
      (List.mem_map.mpr ⟨r, List.mem_of_find?_eq_some hfind, rfl⟩)
  | none => simp

/-- When no rule is named Uncategorized, a headline is assigned a rule name
exactly when some rule matches it. -/
lemma contains_exclusiveLabel (rules : List Rule) (h : String)
    (hnu : "Uncategorized" ∉ rules.map Prod.fst) :
    (rules.map Prod.fst).contains (exclusiveLabel rules h)
      = matchesAnyRule rules h := by
  unfold exclusiveLabel matchesAnyRule
  cases hfind : rules.find? (fun r => r.2 h) with
  | some r =>
    have h1 : r ∈ rules := List.mem_of_find?_eq_some hfind
    have h2 : r.2 h = true := by simpa using List.find?_some hfind
    have hany : rules.any (fun r => r.2 h) = true :=
      List.any_eq_true.mpr ⟨r, h1, h2⟩
    rw [hany]
    exact (contains_true_iff _ _).mpr (List.mem_map.mpr ⟨r, h1, rfl⟩)
  | none =>
    have hany : rules.any (fun r => r.2 h) = false := by
      rw [List.any_eq_false]
      intro r hr
      simpa using List.find?_eq_none.mp hfind r hr
    rw [hany]
    rw [← Bool.not_eq_true]
    intro hc
    exact hnu ((contains_true_iff _ _).mp hc)

/-- When no rule is named Uncategorized, a headline is assigned to
Uncategorized exactly when no rule matches it. -/
lemma exclusiveLabel_uncat (rules : List Rule) (h : String)
    (hnu : "Uncategorized" ∉ rules.map Prod.fst) :
    (exclusiveLabel rules h == "Uncategorized") = ! matchesAnyRule rules h := by
  unfold exclusiveLabel matchesAnyRule
  cases hfind : rules.find? (fun r => r.2 h) with
  | some r =>
    have h1 : r ∈ rules := List.mem_of_find?_eq_some hfind
    have h2 : r.2 h = true := by simpa using List.find?_some hfind
    have hany : rules.any (fun r => r.2 h) = true :=
      List.any_eq_true.mpr ⟨r, h1, h2⟩
    have hne : r.1 ≠ "Uncategorized" := fun he =>
      hnu (he ▸ List.mem_map.mpr ⟨r, h1, rfl⟩)
    simp [hany, hne]
  | none =>
    have hany : rules.any (fun r => r.2 h) = false := by
      rw [List.any_eq_false]
      intro r hr
      simpa using List.find?_eq_none.mp hfind r hr
    simp [hany]

/-- First-match lookup in a keyed map built over a duplicate-free rule list
finds exactly the image of the present rule. -/
lemma find?_map_key (g : Rule → String × Nat × List String)
    (hg : ∀ r, (g r).1 = r.1) (rules : List Rule)
    (hnd : (rules.map Prod.fst).Nodup) (r : Rule) (hr : r ∈ rules) :
    (rules.map g).find? (fun e => e.1 == r.1) = some (g r) := by
  induction rules with
  | nil => cases hr
  | cons r0 rest ih =>
    rw [List.map_cons]
    have hnd' : (r0.1 :: rest.map Prod.fst).Nodup := by
      rw [List.map_cons] at hnd
      exact hnd
    by_cases h0 : (g r0).1 == r.1
    · have h0' : r0.1 = r.1 := by rw [hg] at h0; exact beq_iff_eq.mp h0
      have hrr : r = r0 := by
        rcases List.mem_cons.mp hr with rfl | hmem
        · rfl
        · exfalso
          exact (List.nodup_cons.mp hnd').1
            (h0' ▸ List.mem_map.mpr ⟨r, hmem, rfl⟩)
      subst hrr
      exact List.find?_cons_of_pos _ h0
    · have hstep : (g r0 :: List.map g rest).find? (fun e => e.1 == r.1)
          = (List.map g rest).find? (fun e => e.1 == r.1) :=
        List.find?_cons_of_neg _ h0
      rw [hstep]
      have hne : r ≠ r0 := fun he => h0 (by rw [hg, he, beq_iff_eq])
      have hmem : r ∈ rest := by
        rcases List.mem_cons.mp hr with rfl | hmem
        · exact absurd rfl hne
        · exact hmem
      exact ih (List.nodup_cons.mp hnd').2 hmem

/-- Entry lookup in the multi-category results at the name of a rule of a
duplicate-free rule set yields that rule's count and headline list. -/
lemma getEntry_multi (rules : List Rule) (hs : List String)
    (hnd : (rules.map Prod.fst).Nodup) (r : Rule) (hr : r ∈ rules) :
    getEntry (multi_category_results rules hs) r.1
      = ((hs.filter r.2).length, hs.filter r.2) := by
  unfold getEntry multi_category_results
  rw [List.find?_append,
    find?_map_key (fun r => (r.1, (hs.filter r.2).length, hs.filter r.2))
      (fun _ => rfl) rules hnd r hr]
  rfl

/-- Entry lookup in the multi-category results at Uncategorized yields the
unmatched-headline count and list. -/
lemma getEntry_multi_uncat (rules : List Rule) (hs : List String)
    (hnu : "Uncategorized" ∉ rules.map Prod.fst) :
    getEntry (multi_category_results rules hs) "Uncategorized"
      = ((hs.filter (fun h => ! matchesAnyRule rules h)).length,
         hs.filter (fun h => ! matchesAnyRule rules h)) := by
  unfold getEntry multi_category_results
  rw [List.find?_append]
  have hnone : (rules.map fun r =>
      (r.1, (hs.filter r.2).length, hs.filter r.2)).find?
        (fun e => e.1 == "Uncategorized") = none := by
    rw [List.find?_eq_none]
    intro e he
    rcases List.mem_map.mp he with ⟨r, hrr, rfl⟩
    simp only [beq_eq_false_iff_ne, ne_eq, Bool.not_eq_true]
    intro hc
    exact hnu (hc ▸ List.mem_map.mpr ⟨r, hrr, rfl⟩)
  rw [hnone]
  rfl

/-- Entry lookup in the exclusive results at a rule name yields the count
and list of headlines assigned to that name.  The value of an entry depends
only on its name, so no duplicate-freeness is needed. -/
lemma find?_map_key_of_eq (g : Rule → String × Nat × List String)
    (hg : ∀ r, (g r).1 = r.1) (hv : ∀ r s, r.1 = s.1 → g r = g s)
    (rs : List Rule) (lab : String) (r : Rule) (hr : r ∈ rs)
    (hlab : r.1 = lab) :
    (rs.map g).find? (fun e => e.1 == lab) = some (g r) := by
  induction rs with
  | nil => cases hr
  | cons r0 rest ih =>
    rw [List.map_cons]
    by_cases h0 : (g r0).1 == lab
    · have h0' : r0.1 = lab := by rw [hg] at h0; exact beq_iff_eq.mp h0
      have : g r0 = g r := hv r0 r (h0'.trans hlab.symm)
      rw [← this]
      exact List.find?_cons_of_pos _ h0
    · have hstep : (g r0 :: List.map g rest).find? (fun e => e.1 == lab)
          = (List.map g rest).find? (fun e => e.1 == lab) :=
        List.find?_cons_of_neg _ h0
      rw [hstep]
      have hne : r ≠ r0 := fun he => h0 (by
        rw [hg r0, ← he, hlab]
        exact beq_self_eq_true lab)
      have hmem : r ∈ rest := by
        rcases List.mem_cons.mp hr with rfl | hmem
        · exact absurd rfl hne
        · exact hmem
      exact ih hmem

lemma getEntry_excl (rules : List Rule) (hs : List String) (lab : String)
    (hmem : lab ∈ rules.map Prod.fst) :
    getEntry (exclusive_category_results rules hs) lab
      = (hs.countP (fun h => exclusiveLabel rules h == lab),
         hs.filter (fun h => exclusiveLabel rules h == lab)) := by
  rw [exclusive_results_eq]
  unfold getEntry
  rw [List.find?_append]
  rcases List.mem_map.mp hmem with ⟨r, hr, hlab⟩
  have hfound := find?_map_key_of_eq
    (fun r => (r.1, hs.countP (fun h => exclusiveLabel rules h == r.1),
      hs.filter (fun h => exclusiveLabel rules h == r.1)))
    (fun _ => rfl)
    (fun r s hkey => by dsimp only; rw [hkey])
    rules lab r hr hlab
  rw [hfound]
  simp only [Option.or_some]
  rw [hlab]

/-- Entry lookup in the exclusive results at Uncategorized yields the count
and list of headlines assigned to Uncategorized. -/
lemma getEntry_excl_uncat (rules : List Rule) (hs : List String)
    (hnu : "Uncategorized" ∉ rules.map Prod.fst) :
    getEntry (exclusive_category_results rules hs) "Uncategorized"
      = (hs.countP (fun h => exclusiveLabel rules h == "Uncategorized"),
         hs.filter (fun h => exclusiveLabel rules h == "Uncategorized")) := by
  rw [exclusive_results_eq]
  unfold getEntry
  rw [List.find?_append]
  have hnone : (rules.map fun r => (r.1,
      hs.countP (fun h => exclusiveLabel rules h == r.1),
      hs.filter (fun h => exclusiveLabel rules h == r.1))).find?
        (fun e => e.1 == "Uncategorized") = none := by
    rw [List.find?_eq_none]
    intro e he
    rcases List.mem_map.mp he with ⟨r, hrr, rfl⟩
    simp only [beq_eq_false_iff_ne, ne_eq, Bool.not_eq_true]
    intro hc
    exact hnu (hc ▸ List.mem_map.mpr ⟨r, hrr, rfl⟩)
  rw [hnone]
  rfl

/-- The partition invariant of the exclusive classification: the counts over
all entries, Uncategorized included, sum to the number of headlines. -/
lemma excl_sum_eq (rules : List Rule) (hs : List String)
    (hnd : (rules.map Prod.fst).Nodup)
    (hnu : "Uncategorized" ∉ rules.map Prod.fst) :
    exclusive_sum rules hs = hs.length := by
  unfold exclusive_sum
  rw [exclusive_results_eq, List.map_append, List.sum_append, List.map_map]
  have hnd2 : (rules.map Prod.fst ++ ["Uncategorized"]).Nodup := by
    rw [List.nodup_append]
    exact ⟨hnd, List.nodup_singleton _, fun a ha hb => by
      rw [List.mem_singleton] at hb
      exact hnu (hb ▸ ha)⟩
  have hclasses := sum_countP_classes hs (exclusiveLabel rules)
    (rules.map Prod.fst ++ ["Uncategorized"]) hnd2
  have hall : hs.countP
      (fun h => (rules.map Prod.fst ++ ["Uncategorized"]).contains
        (exclusiveLabel rules h)) = hs.length := by
    have hcong : hs.countP
        (fun h => (rules.map Prod.fst ++ ["Uncategorized"]).contains
          (exclusiveLabel rules h)) = hs.countP (fun _ => true) :=
      List.countP_congr fun h _ => by
        constructor
        · intro _
          rfl
        · intro _
          exact (contains_true_iff _ _).mpr (exclusiveLabel_mem rules h)
    rw [hcong]
    simp
  rw [List.map_append, List.sum_append, List.map_map] at hclasses
  rw [← hclasses] at hall
  rw [← hall]
  simp [Function.comp_def]

/-- With no rule named Uncategorized, the multi-category total is the sum of
the per-rule match counts. -/
lemma multi_sum_eq (rules : List Rule) (hs : List String)
    (hnu : "Uncategorized" ∉ rules.map Prod.fst) :
    multi_sum rules hs = (rules.map fun r => hs.countP r.2).sum := by
  unfold multi_sum multi_category_results
  rw [List.filter_append]
  have h2 : List.filter (fun e => e.1 != "Uncategorized")
      [("Uncategorized",
        (hs.filter (fun h => ! matchesAnyRule rules h)).length,
        hs.filter (fun h => ! matchesAnyRule rules h))] = [] := by
    simp
  have h1 : (rules.map fun r =>
      (r.1, (hs.filter r.2).length, hs.filter r.2)).filter
        (fun e => e.1 != "Uncategorized")
      = rules.map fun r => (r.1, (hs.filter r.2).length, hs.filter r.2) := by
    rw [List.filter_eq_self]
    intro e he
    rcases List.mem_map.mp he with ⟨r, hrr, rfl⟩
    simp only [bne_iff_ne, ne_eq]
    intro hc
    exact hnu (hc ▸ List.mem_map.mpr ⟨r, hrr, rfl⟩)
  rw [h1, h2, List.append_nil, List.map_map]
  refine congrArg List.sum (List.map_congr_left fun r _ => ?_)
  simp [Function.comp_def, List.countP_eq_length_filter]

/-- With distinct rule names none of which is Uncategorized, the exclusive
total without the Uncategorized entry counts the headlines matched by some
rule. -/
lemma excl_nonuncat_eq (rules : List Rule) (hs : List String)
    (hnd : (rules.map Prod.fst).Nodup)
    (hnu : "Uncategorized" ∉ rules.map Prod.fst) :
    exclusive_sum_non_uncategorized rules hs
      = hs.countP (fun h => matchesAnyRule rules h) := by
  unfold exclusive_sum_non_uncategorized
  rw [exclusive_results_eq, List.filter_append]
  have h2 : List.filter (fun e => e.1 != "Uncategorized")
      [("Uncategorized",
        hs.countP (fun h => exclusiveLabel rules h == "Uncategorized"),
        hs.filter (fun h => exclusiveLabel rules h == "Uncategorized"))]
      = [] := by
    simp
  have h1 : (rules.map fun r => (r.1,
      hs.countP (fun h => exclusiveLabel rules h == r.1),
      hs.filter (fun h => exclusiveLabel rules h == r.1))).filter
        (fun e => e.1 != "Uncategorized")
      = rules.map fun r => (r.1,
          hs.countP (fun h => exclusiveLabel rules h == r.1),
          hs.filter (fun h => exclusiveLabel rules h == r.1)) := by
    rw [List.filter_eq_self]
    intro e he
    rcases List.mem_map.mp he with ⟨r, hrr, rfl⟩
    simp only [bne_iff_ne, ne_eq]
    intro hc
    exact hnu (hc ▸ List.mem_map.mpr ⟨r, hrr, rfl⟩)
  rw [h1, h2, List.append_nil, List.map_map]
  have hclasses := sum_countP_classes hs (exclusiveLabel rules)
    (rules.map Prod.fst) hnd
  rw [List.map_map] at hclasses
  have hsame : (rules.map (Function.comp
      (fun e : String × Nat × List String => e.2.1)
      (fun r => (r.1, hs.countP (fun h => exclusiveLabel rules h == r.1),
        hs.filter (fun h => exclusiveLabel rules h == r.1))))).sum
      = (rules.map (Function.comp
          (fun lab => hs.countP fun a => exclusiveLabel rules a == lab)
          Prod.fst)).sum := rfl
  rw [hsame, hclasses]
  exact List.countP_congr fun h _ => by
    rw [contains_exclusiveLabel rules h hnu]

/-- Value of a single cell bump. -/
lemma bumpCell_apply (m : String → String → Nat) (a b x y : String) :
    bumpCell m a b x y = m x y + (if x = a ∧ y = b then 1 else 0) := by
  unfold bumpCell
  by_cases h1 : x = a <;> by_cases h2 : y = b <;> simp [h1, h2]

/-- Value of an arbitrary cell after processing one enumerated pair. -/
lemma pairStep_apply (m : String → String → Nat) (p : String × String)
    (a b : String) :
    pairStep m p a b = m a b + (if a = p.1 ∧ b = p.2 then 1 else 0)
      + (if p.1 ≠ p.2 ∧ a = p.2 ∧ b = p.1 then 1 else 0) := by
  unfold pairStep
  by_cases hp : p.1 = p.2
  · have hb : (p.1 == p.2) = true := by simp [hp]
    rw [hb]
    simp only [if_true, bumpCell_apply]
    have h2 : (if p.1 ≠ p.2 ∧ a = p.2 ∧ b = p.1 then 1 else 0) = 0 :=
      if_neg fun hc => hc.1 hp
    omega
  · have hb : (p.1 == p.2) = false := by simp [hp]
    rw [hb]
    simp only [Bool.false_eq_true, if_false, bumpCell_apply]
    have h2 : (if p.1 ≠ p.2 ∧ a = p.2 ∧ b = p.1 then 1 else 0)
        = (if a = p.2 ∧ b = p.1 then 1 else 0) := by
      by_cases hc : a = p.2 ∧ b = p.1
      · rw [if_pos ⟨hp, hc⟩, if_pos hc]
      · rw [if_neg fun hcc => hc hcc.2, if_neg hc]
    omega

/-- One bump of a single enumerated pair keeps the table symmetric. -/
lemma pairStep_symm (m : String → String → Nat) (p : String × String)
    (hm : ∀ a b, m a b = m b a) (a b : String) :
    pairStep m p a b = pairStep m p b a := by
  rw [pairStep_apply, pairStep_apply, hm a b]
  by_cases hp : p.1 = p.2
  · have hz1 : (if p.1 ≠ p.2 ∧ a = p.2 ∧ b = p.1 then 1 else 0) = 0 :=
      if_neg fun hc => hc.1 hp
    have hz2 : (if p.1 ≠ p.2 ∧ b = p.2 ∧ a = p.1 then 1 else 0) = 0 :=
      if_neg fun hc => hc.1 hp
    have he : (if a = p.1 ∧ b = p.2 then (1 : Nat) else 0)
        = (if b = p.1 ∧ a = p.2 then 1 else 0) := by
      by_cases hc : a = p.1 ∧ b = p.2
      · rw [if_pos hc, if_pos ⟨hp ▸ hc.2, hp.symm ▸ hc.1⟩]
      · rw [if_neg hc, if_neg fun hcc => hc ⟨hp ▸ hcc.2, hp.symm ▸ hcc.1⟩]
    omega
  · have he1 : (if p.1 ≠ p.2 ∧ a = p.2 ∧ b = p.1 then (1 : Nat) else 0)
        = (if b = p.1 ∧ a = p.2 then 1 else 0) := by
      by_cases hc : a = p.2 ∧ b = p.1
      · rw [if_pos ⟨hp, hc⟩, if_pos ⟨hc.2, hc.1⟩]
      · rw [if_neg fun hcc => hc hcc.2, if_neg fun hcc => hc ⟨hcc.2, hcc.1⟩]
    have he2 : (if p.1 ≠ p.2 ∧ b = p.2 ∧ a = p.1 then (1 : Nat) else 0)
        = (if a = p.1 ∧ b = p.2 then 1 else 0) := by
      by_cases hc : b = p.2 ∧ a = p.1
      · rw [if_pos ⟨hp, hc⟩, if_pos ⟨hc.2, hc.1⟩]
      · rw [if_neg fun hcc => hc hcc.2, if_neg fun hcc => hc ⟨hcc.2, hcc.1⟩]
    omega

/-- The diagonal of the table moves only under a self-pair equal to the
diagonal's own index. -/
lemma pairStep_diag (m : String → String → Nat) (p : String × String)
    (a : String) :
    pairStep m p a a = m a a + (if p == (a, a) then 1 else 0) := by
  rw [pairStep_apply]
  have h2 : (if p.1 ≠ p.2 ∧ a = p.2 ∧ a = p.1 then 1 else 0) = 0 :=
    if_neg fun hc => hc.1 (hc.2.2.symm.trans hc.2.1)
  have he : (if a = p.1 ∧ a = p.2 then (1 : Nat) else 0)
      = (if p == (a, a) then 1 else 0) := by
    by_cases hc : p = (a, a)
    · subst hc
      simp
    · have hb : (p == (a, a)) = false := by simp [hc]
      have hprop : ¬ (a = p.1 ∧ a = p.2) := fun hcc =>
        hc (Prod.ext_iff.mpr ⟨hcc.1.symm, hcc.2.symm⟩)
      rw [hb, if_neg hprop]
      simp
  omega

/-- Folding pair bumps over a pair list adds to the diagonal the number of
occurrences of the matching self-pair. -/
lemma foldl_pairStep_diag (ps : List (String × String))
    (m : String → String → Nat) (a : String) :
    (ps.foldl pairStep m) a a = m a a + ps.countP (fun p => p == (a, a)) := by
  induction ps generalizing m with
  | nil => simp
  | cons p t ih =>
    rw [List.foldl_cons, ih, pairStep_diag, List.countP_cons]
    omega

/-- Folding pair bumps keeps the table symmetric. -/
lemma foldl_pairStep_symm (ps : List (String × String))
    (m : String → String → Nat) (hm : ∀ a b, m a b = m b a) :
    ∀ a b, (ps.foldl pairStep m) a b = (ps.foldl pairStep m) b a := by
  induction ps generalizing m with
  | nil => exact hm
  | cons p t ih =>
    rw [List.foldl_cons]
    exact ih (pairStep m p) (pairStep_symm m p hm)

/-- In the enumeration of a duplicate-free category list, the self-pair of a
name occurs once when the name is present and never otherwise. -/
lemma tailPairs_countP_diag (cats : List String) (hnd : cats.Nodup)
    (a : String) :
    (tailPairs cats).countP (fun p => p == (a, a))
      = if a ∈ cats then 1 else 0 := by
  induction cats with
  | nil => simp [tailPairs]
  | cons c rest ih =>
    rw [tailPairs, List.countP_append, List.countP_map]
    have ihr := ih (List.nodup_cons.mp hnd).2
    by_cases hc : c = a
    · subst hc
      have hnotmem : c ∉ rest := (List.nodup_cons.mp hnd).1
      have h1 : (c :: rest).countP (fun c2 => ((c, c2) == (c, c)))
          = 1 := by
        rw [List.countP_cons]
        have hz : rest.countP (fun c2 => ((c, c2) == (c, c))) = 0 :=
          List.countP_eq_zero.mpr fun x hx => by
            have : x ≠ c := fun he => hnotmem (he ▸ hx)
            simp [this]
        simp [hz]
      have h2 : (tailPairs rest).countP (fun p => p == (c, c)) = 0 := by
        rw [ihr, if_neg hnotmem]
      rw [h2]
      simp only [List.mem_cons, true_or, if_pos]
      convert h1 using 2
    · have h1 : (c :: rest).countP
          ((fun p => p == (a, a)) ∘ fun c2 => (c, c2)) = 0 :=
        List.countP_eq_zero.mpr fun x _ => by
          simp only [Function.comp_apply, beq_iff_eq, Prod.mk.injEq,
            decide_eq_true_eq, not_and]
          intro hca
          exact absurd hca hc
      rw [h1, ihr, Nat.zero_add]
      by_cases hmem : a ∈ rest
      · rw [if_pos hmem, if_pos (List.mem_cons_of_mem c hmem)]
      · rw [if_neg hmem, if_neg fun hmm => by
          rcases List.mem_cons.mp hmm with he | he
          · exact hc he.symm
          · exact hmem he]

/-- The matched category list of a headline is duplicate-free whenever the
rule names are. -/
lemma matchedCats_nodup (rules : List Rule) (excluded : List String)
    (h : String) (hnd : (rules.map Prod.fst).Nodup) :
    (matchedCats rules excluded h).Nodup := by
  unfold matchedCats eligibleRules
  refine hnd.sublist ?_
  exact ((List.filter_sublist _).trans (List.filter_sublist _)).map Prod.fst

/-- The diagonal of the co-occurrence matrix counts the headlines whose
matched eligible categories include the given name. -/
lemma cooc_diag (rules : List Rule) (excluded : List String)
    (hs : List String) (hnd : (rules.map Prod.fst).Nodup) (a : String) :
    co_occurrence_matrix rules excluded hs a a
      = hs.countP (fun h => (matchedCats rules excluded h).contains a) := by
  unfold co_occurrence_matrix
  suffices hgen : ∀ (l : List String) (m : String → String → Nat),
      (l.foldl (fun m h =>
        (tailPairs (matchedCats rules excluded h)).foldl pairStep m) m) a a
        = m a a + l.countP
            (fun h => (matchedCats rules excluded h).contains a) by
    rw [hgen hs _]
    simp
  intro l
  induction l with
  | nil =>
    intro m
    simp
  | cons h t ih =>
    intro m
    rw [List.foldl_cons, ih, foldl_pairStep_diag,
      tailPairs_countP_diag _ (matchedCats_nodup rules excluded h hnd),
      List.countP_cons]
    have hite : (if (matchedCats rules excluded h).contains a
          then (1 : Nat) else 0)
        = (if a ∈ matchedCats rules excluded h then 1 else 0) := by
      by_cases hm : a ∈ matchedCats rules excluded h
      · rw [if_pos ((contains_true_iff _ _).mpr hm), if_pos hm]
      · rw [if_neg hm, if_neg fun hcc =>
          hm ((contains_true_iff _ _).mp hcc)]
    omega

/-- The whole co-occurrence matrix is symmetric. -/
lemma cooc_symm_aux (rules : List Rule) (excluded : List String)
    (hs : List String) :
    ∀ a b, co_occurrence_matrix rules excluded hs a b
      = co_occurrence_matrix rules excluded hs b a := by
  unfold co_occurrence_matrix
  suffices hgen : ∀ (l : List String) (m : String → String → Nat),
      (∀ a b, m a b = m b a) →
      ∀ a b, (l.foldl (fun m h =>
        (tailPairs (matchedCats rules excluded h)).foldl pairStep m) m) a b
        = (l.foldl (fun m h =>
            (tailPairs (matchedCats rules excluded h)).foldl pairStep m) m) b a by
    exact hgen hs _ fun _ _ => rfl
  intro l
  induction l with
  | nil =>
    intro m hm
    exact hm
  | cons h t ih =>
    intro m hm
    rw [List.foldl_cons]
    exact ih _ (foldl_pairStep_symm _ m hm)

/-- For an eligible rule of a duplicate-free rule set, membership of its
name in a headline's matched categories is exactly the rule's own match
verdict. -/
lemma contains_matchedCats (rules : List Rule) (excluded : List String)
    (h : String) (hnd : (rules.map Prod.fst).Nodup) (r : Rule)
    (hr : r ∈ rules) (hne : r.1 ∉ excluded) :
    (matchedCats rules excluded h).contains r.1 = r.2 h := by
  cases hmatch : r.2 h with
  | true =>
    have helig : r ∈ eligibleRules rules excluded := by
      unfold eligibleRules
      rw [List.mem_filter]
      refine ⟨hr, ?_⟩
      rw [Bool.not_eq_true']
      rw [← Bool.not_eq_true]
      intro hc
      exact hne ((contains_true_iff _ _).mp hc)
    have hmem : r.1 ∈ matchedCats rules excluded h := by
      unfold matchedCats
      exact List.mem_map.mpr ⟨r, List.mem_filter.mpr ⟨helig, hmatch⟩, rfl⟩
    exact (contains_true_iff _ _).mpr hmem
  | false =>
    rw [← Bool.not_eq_true]
    intro hc
    have hmem := (contains_true_iff _ _).mp hc
    unfold matchedCats at hmem
    rcases List.mem_map.mp hmem with ⟨r2, hr2, hkey⟩
    rcases List.mem_filter.mp hr2 with ⟨helig2, hmatch2⟩
    have hr2rules : r2 ∈ rules := by
      unfold eligibleRules at helig2
      exact (List.mem_filter.mp helig2).1
    have heq : r2 = r := List.inj_on_of_nodup_map hnd hr2rules hr hkey
    rw [heq, hmatch] at hmatch2
    exact Bool.false_ne_true hmatch2

/-- C1: for every headline sequence and every ordered rule set with the
dict structure of the script (distinct rule names, none equal to the
sentinel), the exclusive classifier yields a partition: the counts of all
categories, Uncategorized included, sum to exactly the number of
headlines. -/
theorem C1_exclusive_partition (rules : List Rule) (hs : List String)
    (hnd : (rules.map Prod.fst).Nodup)
    (hnu : "Uncategorized" ∉ rules.map Prod.fst) :
    exclusive_sum rules hs = hs.length :=
  excl_sum_eq rules hs hnd hnu

/-- Witness for C1 at the demonstration rule set and headlines. -/
theorem C1_exclusive_partition_witness :
    exclusive_sum demoRules demoHeadlines = demoHeadlines.length :=
  C1_exclusive_partition demoRules demoHeadlines (by decide) (by decide)

/-- C2: at a concrete input on which the invisible category set sums to
zero, both visibility ratio computations of the script raise
ZeroDivisionError instead of returning a defined non-finite indicator,
contradicting the specified error handling. -/
theorem C2_visibility_ratio_zero_division :
    visibilityRatioExclusive demoRules demoHeadlines ["Deaf/Hearing"]
        ["Mental Health & Neuro"] = Except.error "ZeroDivisionError" ∧
    visibilityRatioMulti demoRules demoHeadlines ["Deaf/Hearing"]
        ["Mental Health & Neuro"] = Except.error "ZeroDivisionError" :=
  ⟨rfl, rfl⟩

/-- C3: for every headline sequence, rule set and exclusion list, the
co-occurrence matrix is symmetric. -/
theorem C3_cooccurrence_symmetric (rules : List Rule)
    (excluded : List String) (hs : List String) (a b : String) :
    co_occurrence_matrix rules excluded hs a b
      = co_occurrence_matrix rules excluded hs b a :=
  cooc_symm_aux rules excluded hs a b

/-- C4: for every eligible rule of a rule set with distinct names, the
diagonal cell of the co-occurrence matrix at its name equals the
multi-label match count of that category. -/
theorem C4_cooccurrence_diagonal (rules : List Rule)
    (excluded : List String) (hs : List String)
    (hnd : (rules.map Prod.fst).Nodup) (r : Rule) (hr : r ∈ rules)
    (hne : r.1 ∉ excluded) :
    co_occurrence_matrix rules excluded hs r.1 r.1
      = (getEntry (multi_category_results rules hs) r.1).1 := by
  rw [cooc_diag rules excluded hs hnd r.1, getEntry_multi rules hs hnd r hr]
  rw [List.countP_congr fun h _ => by
    rw [contains_matchedCats rules excluded h hnd r hr hne]]
  exact List.countP_eq_length_filter _ _

/-- Witness for C4 at the Deaf/Hearing demonstration rule. -/
theorem C4_cooccurrence_diagonal_witness :
    co_occurrence_matrix demoRules ["General Disability Keyword"]
        demoHeadlines rDeaf.1 rDeaf.1
      = (getEntry (multi_category_results demoRules demoHeadlines)
          rDeaf.1).1 :=
  C4_cooccurrence_diagonal demoRules ["General Disability Keyword"]
    demoHeadlines (by decide) rDeaf (List.Mem.head _) (by decide)

/-- C5: every headline is counted by the multi-label classifier in every
matching category; the exclusive classifier places it only in the entry of
the first matching rule and in no other entry; with no matching rule it is
placed in Uncategorized. -/
theorem C5_first_match_semantics (rules : List Rule) (hs : List String)
    (hnd : (rules.map Prod.fst).Nodup)
    (hnu : "Uncategorized" ∉ rules.map Prod.fst)
    (h : String) (hh : h ∈ hs) :
    (∀ r ∈ rules, r.2 h = true →
        h ∈ (getEntry (multi_category_results rules hs) r.1).2) ∧
    (∀ r0, rules.find? (fun r => r.2 h) = some r0 →
        h ∈ (getEntry (exclusive_category_results rules hs) r0.1).2 ∧
        ∀ r ∈ rules, r.1 ≠ r0.1 →
          h ∉ (getEntry (exclusive_category_results rules hs) r.1).2) ∧
    (rules.find? (fun r => r.2 h) = none →
        h ∈ (getEntry (exclusive_category_results rules hs)
          "Uncategorized").2) := by
  refine ⟨?_, ?_, ?_⟩
  · intro r hr hmatch
    rw [getEntry_multi rules hs hnd r hr]
    exact List.mem_filter.mpr ⟨hh, hmatch⟩
  · intro r0 hfind
    have hr0 : r0 ∈ rules := List.mem_of_find?_eq_some hfind
    have hlabel : exclusiveLabel rules h = r0.1 := by
      unfold exclusiveLabel
      rw [hfind]
    constructor
    · rw [getEntry_excl rules hs r0.1 (List.mem_map.mpr ⟨r0, hr0, rfl⟩)]
      exact List.mem_filter.mpr ⟨hh, by simp [hlabel]⟩
    · intro r hr hne hcmem
      rw [getEntry_excl rules hs r.1
        (List.mem_map.mpr ⟨r, hr, rfl⟩)] at hcmem
      have hbl := (List.mem_filter.mp hcmem).2
      exact hne (beq_iff_eq.mp (hlabel ▸ hbl)).symm
  · intro hfind
    have hlabel : exclusiveLabel rules h = "Uncategorized" := by
      unfold exclusiveLabel
      rw [hfind]
    rw [getEntry_excl_uncat rules hs hnu]
    exact List.mem_filter.mpr ⟨hh, by simp [hlabel]⟩

/-- Witness for C5: the doubly matched demonstration headline is in the
multi-label entry of the later rule but exclusively in the first rule's
entry. -/
theorem C5_first_match_semantics_witness :
    "Deaf son inspires mum"
        ∈ (getEntry (multi_category_results demoRules demoHeadlines)
            rFam.1).2 ∧
    "Deaf son inspires mum"
        ∈ (getEntry (exclusive_category_results demoRules demoHeadlines)
            rDeaf.1).2 :=
  ⟨(C5_first_match_semantics demoRules demoHeadlines (by decide) (by decide)
      "Deaf son inspires mum" (by decide)).1 rFam
      (List.mem_cons_of_mem _ (List.Mem.head _)) (by decide),
   ((C5_first_match_semantics demoRules demoHeadlines (by decide) (by decide)
      "Deaf son inspires mum" (by decide)).2.1 rDeaf rfl).1⟩

/-- C6: the multi-label total bounds the exclusive non-Uncategorized total
from above, with equality exactly when no headline matches more than one
category. -/
theorem C6_multi_vs_exclusive (rules : List Rule) (hs : List String)
    (hnd : (rules.map Prod.fst).Nodup)
    (hnu : "Uncategorized" ∉ rules.map Prod.fst) :
    exclusive_sum_non_uncategorized rules hs ≤ multi_sum rules hs ∧
    (multi_sum rules hs = exclusive_sum_non_uncategorized rules hs ↔
      ∀ h ∈ hs, rules.countP (fun r => r.2 h) ≤ 1) := by
  have hmulti : multi_sum rules hs
      = (hs.map fun h => rules.countP fun r => r.2 h).sum := by
    rw [multi_sum_eq rules hs hnu, sum_counts_swap]
  have hexcl : exclusive_sum_non_uncategorized rules hs
      = (hs.map fun h =>
          if rules.any (fun r => r.2 h) then 1 else 0).sum := by
    rw [excl_nonuncat_eq rules hs hnd hnu]
    unfold matchesAnyRule
    exact countP_eq_sum_map hs _
  have hpoint : ∀ h ∈ hs,
      (if rules.any (fun r => r.2 h) then (1 : Nat) else 0)
        ≤ rules.countP (fun r => r.2 h) := by
    intro h _
    by_cases hany : rules.any (fun r => r.2 h) = true
    · rw [if_pos hany]
      rcases List.any_eq_true.mp hany with ⟨r, hr, hmatch⟩
      have hpos : 0 < rules.countP (fun r => r.2 h) :=
        List.countP_pos_iff.mpr ⟨r, hr, hmatch⟩
      omega
    · rw [if_neg hany]
      omega
  constructor
  · rw [hmulti, hexcl]
    exact List.sum_le_sum hpoint
  · rw [hmulti, hexcl, sum_map_eq_iff hs _ _ hpoint]
    constructor
    · intro hall h hh
      have he := hall h hh
      by_cases hany : rules.any (fun r => r.2 h) = true
      · rw [if_pos hany] at he
        omega
      · rw [if_neg hany] at he
        omega
    · intro hall h hh
      have hle := hall h hh
      by_cases hany : rules.any (fun r => r.2 h) = true
      · rw [if_pos hany]
        rcases List.any_eq_true.mp hany with ⟨r, hr, hmatch⟩
        have hpos : 0 < rules.countP (fun r => r.2 h) :=
          List.countP_pos_iff.mpr ⟨r, hr, hmatch⟩
        omega
      · rw [if_neg hany]
        have hz : rules.countP (fun r => r.2 h) = 0 := by
          rw [List.countP_eq_zero]
          intro r hr hmatch
          exact hany (List.any_eq_true.mpr ⟨r, hr, hmatch⟩)
        omega

/-- Witness for C6: on the demonstration input the exclusive
non-Uncategorized total is bounded by the multi-label total. -/
theorem C6_multi_vs_exclusive_witness :
    exclusive_sum_non_uncategorized demoRules demoHeadlines
      ≤ multi_sum demoRules demoHeadlines :=
  (C6_multi_vs_exclusive demoRules demoHeadlines (by decide) (by decide)).1

/-- C7: the analysis is deterministic: two runs on equal rule sets, equal
exclusion lists and equal headline sequences produce identical
multi-label results, identical exclusive results and identical
co-occurrence matrices. -/
theorem C7_deterministic (rules1 rules2 : List Rule)
    (excluded1 excluded2 hs1 hs2 : List String)
    (hr : rules1 = rules2) (he : excluded1 = excluded2) (hh : hs1 = hs2) :
    multi_category_results rules1 hs1 = multi_category_results rules2 hs2 ∧
    exclusive_category_results rules1 hs1
      = exclusive_category_results rules2 hs2 ∧
    ∀ a b, co_occurrence_matrix rules1 excluded1 hs1 a b
      = co_occurrence_matrix rules2 excluded2 hs2 a b := by
  subst hr
  subst he
  subst hh
  exact ⟨rfl, rfl, fun _ _ => rfl⟩

/-- Witness for C7 at the demonstration input. -/
theorem C7_deterministic_witness :
    multi_category_results demoRules demoHeadlines
      = multi_category_results demoRules demoHeadlines :=
  (C7_deterministic demoRules demoRules [] [] demoHeadlines demoHeadlines
    rfl rfl rfl).1

/-- C8: swapping two rules of the rule set never changes the exclusive
total partition count, which stays equal to the number of headlines. -/
theorem C8_swap_preserves_total (A B C : List Rule) (r s : Rule)
    (hs : List String)
    (hnd : ((A ++ r :: (B ++ s :: C)).map Prod.fst).Nodup)
    (hnu : "Uncategorized" ∉ (A ++ r :: (B ++ s :: C)).map Prod.fst) :
    exclusive_sum (A ++ r :: (B ++ s :: C)) hs
      = exclusive_sum (A ++ s :: (B ++ r :: C)) hs := by
  have hperm : List.Perm (A ++ r :: (B ++ s :: C)) (A ++ s :: (B ++ r :: C)) := by
    refine List.Perm.append_left A ?_
    have p1 : List.Perm (r :: (B ++ s :: C)) (r :: s :: (B ++ C)) :=
      List.Perm.cons r List.perm_middle
    have p2 : List.Perm (r :: s :: (B ++ C)) (s :: r :: (B ++ C)) :=
      List.Perm.swap s r (B ++ C)
    have p3 : List.Perm (s :: r :: (B ++ C)) (s :: (B ++ r :: C)) :=
      List.Perm.cons s List.perm_middle.symm
    exact (p1.trans p2).trans p3
  have hpermL := hperm.map Prod.fst
  have hnd2 : ((A ++ s :: (B ++ r :: C)).map Prod.fst).Nodup :=
    hpermL.nodup hnd
  have hnu2 : "Uncategorized" ∉ (A ++ s :: (B ++ r :: C)).map Prod.fst :=
    fun hc => hnu (hpermL.mem_iff.mpr hc)
  rw [excl_sum_eq _ hs hnd hnu, excl_sum_eq _ hs hnd2 hnu2]

/-- Witness for C8 at the two-rule demonstration set. -/
theorem C8_swap_preserves_total_witness :
    exclusive_sum [rDeaf, rFam] demoHeadlines
      = exclusive_sum [rFam, rDeaf] demoHeadlines :=
  C8_swap_preserves_total [] [] [] rDeaf rFam demoHeadlines
    (by decide) (by decide)

/-- C9: the Uncategorized count of the multi-label results equals the
Uncategorized count of the exclusive results. -/
theorem C9_uncategorized_agree (rules : List Rule) (hs : List String)
    (hnu : "Uncategorized" ∉ rules.map Prod.fst) :
    (getEntry (multi_category_results rules hs) "Uncategorized").1
      = (getEntry (exclusive_category_results rules hs) "Uncategorized").1 := by
  rw [getEntry_multi_uncat rules hs hnu, getEntry_excl_uncat rules hs hnu]
  rw [← List.countP_eq_length_filter]
  exact (List.countP_congr fun h _ => by
    rw [exclusiveLabel_uncat rules h hnu]).symm

/-- Witness for C9 at the demonstration input. -/
theorem C9_uncategorized_agree_witness :
    (getEntry (multi_category_results demoRules demoHeadlines)
        "Uncategorized").1
      = (getEntry (exclusive_category_results demoRules demoHeadlines)
          "Uncategorized").1 :=
  C9_uncategorized_agree demoRules demoHeadlines (by decide)

/-- C10: in both result mappings every entry's stored count equals the
length of its headline list. -/
theorem C10_count_matches_length (rules : List Rule) (hs : List String) :
    (∀ e ∈ multi_category_results rules hs, e.2.1 = e.2.2.length) ∧
    (∀ e ∈ exclusive_category_results rules hs, e.2.1 = e.2.2.length) := by
  constructor
  · intro e he
    unfold multi_category_results at he
    rcases List.mem_append.mp he with h1 | h1
    · rcases List.mem_map.mp h1 with ⟨r, _, rfl⟩
      rfl
    · rw [List.mem_singleton] at h1
      subst h1
      rfl
  · intro e he
    rw [exclusive_results_eq] at he
    rcases List.mem_append.mp he with h1 | h1
    · rcases List.mem_map.mp h1 with ⟨r, _, rfl⟩
      exact List.countP_eq_length_filter _ _
    · rw [List.mem_singleton] at h1
      subst h1
      exact List.countP_eq_length_filter _ _

/-- Witness for C10 at the first multi-label entry of the demonstration
input. -/
theorem C10_count_matches_length_witness :
    (("Deaf/Hearing", 1, ["Deaf son inspires mum"])
        : String × Nat × List String).2.1
      = (("Deaf/Hearing", 1, ["Deaf son inspires mum"])
          : String × Nat × List String).2.2.length :=
  (C10_count_matches_length demoRules demoHeadlines).1
    ("Deaf/Hearing", 1, ["Deaf son inspires mum"]) (by decide)

end BBCAnalysis
